import Mathlib

/-!
Range mapping, fixed-point scaling and bit inspection: a shallow embedding of
`src/precision.c`.

* `double` values are exact rationals (`ℚ`): the macros are embedded as the
  arithmetic their C expressions denote, with floating-point rounding left out.
  The one place where rounding is modelled is the value `main` computes
  (`main_m`): there each `double` operation and the store to `float` round to
  nearest, ties to even (`round_binary`).
* `int` is a 32-bit signed integer; the result of an `int` operation that does not
  fit is reduced modulo `2^32` into `[-2^31, 2^31)` (`wrap_int`).
* `size_t` is a 64-bit unsigned integer (LP64).
* a 32-bit or 64-bit object is a natural number below `2^32` or `2^64`, stored
  least-significant byte first; bit-fields are allocated from the least
  significant bit upwards in declaration order.
* `stdout` is the list of characters written so far; a read outside the buffer
  (undefined behaviour in C) makes the run fail with `none`.
-/

namespace Precision

/-! ## Machine integers -/

/-- Reduction of an integer to the 32-bit signed range `[-2^31, 2^31)`, the value an
`int` holds after a conversion or an operation whose exact result does not fit. -/
def wrap_int (v : Int) : Int := (v + 2 ^ 31) % 2 ^ 32 - 2 ^ 31

/-- The C expression `a << n` on `int` operands: the exact product `a * 2^n` reduced
to 32 bits (what the usual compilers produce where the product does not fit and the
C standard leaves the shift undefined). -/
def shl_int (a : Int) (n : Nat) : Int := wrap_int (a * 2 ^ n)

/-- Value of an expression of type `size_t`: reduction modulo `2^64`. -/
def wrap_size_t (v : Int) : Nat := (v % 2 ^ 64).toNat

/-! ## Range mapping (lines 4-11) -/

/-- The constant `const double min = 240;`. -/
def min : ℚ := 240

/-- The constant `const double max = 60000;`. -/
def max : ℚ := 60000

/-- Body of the macro `normalize`, with the two range constants it closes over
taken as parameters: `((x) - min) / (max - min)`. -/
def normalize_in (min max x : ℚ) : ℚ := (x - min) / (max - min)

/-- Body of the macro `denormalize`, with the two range constants it closes over
taken as parameters: `(x) * (max - min) + min`. -/
def denormalize_in (min max x : ℚ) : ℚ := x * (max - min) + min

/-- The macro `#define normalize(x) (((x) - min) / (max - min))` at the configured
constants. -/
def normalize (x : ℚ) : ℚ := (x - min) / (max - min)

/-- The macro `#define denormalize(x) ((x) * (max - min) + min)` at the configured
constants. -/
def denormalize (x : ℚ) : ℚ := x * (max - min) + min

/-! ## Floating-point rounding and the value computed by `main` (lines 64-67) -/

/-- Rounding of a rational to the nearest integer, a tie going to the even one. -/
def round_half_even (x : ℚ) : ℤ :=
  if x - ⌊x⌋ < 1 / 2 then ⌊x⌋
  else if 1 / 2 < x - ⌊x⌋ then ⌊x⌋ + 1
  else if ⌊x⌋ % 2 = 0 then ⌊x⌋ else ⌊x⌋ + 1

/-- Rounding of a rational to the nearest binary floating-point number with a
significand of `p` bits, ties to even: with `e` the exponent of `x`
(`2^e <= |x| < 2^(e+1)`), `x` is rounded to a multiple of `2^(e-p+1)`. The exponent
range is not bounded, so this is IEEE 754 rounding for results in the normal range of
the format. -/
def round_binary (p : Nat) (x : ℚ) : ℚ :=
  if x = 0 then 0
  else (round_half_even (x / 2 ^ (Int.log 2 |x| - p + 1)) : ℚ) * 2 ^ (Int.log 2 |x| - p + 1)

/-- Rounding to `double` (binary64, 53-bit significand): the result of each `double`
operation. -/
def to_double (x : ℚ) : ℚ := round_binary 53 x

/-- Rounding to `float` (binary32, 24-bit significand): a store to a `float`. -/
def to_float (x : ℚ) : ℚ := round_binary 24 x

/-- The value `main` stores in `m`: `float m = 242; m = normalize(m);`. The macro
expands to `((m) - min) / (max - min)`: the two subtractions and the division are
`double` operations, each rounded to `double`, and the assignment to the `float m`
rounds the quotient to `float`. -/
def main_m : ℚ :=
  to_float (to_double (to_double (to_float 242 - min) / to_double (max - min)))

/-! ## Fixed-point scaling (lines 13-15) -/

/-- The constant `const unsigned int scale = 31;`. -/
def scale : Nat := 31

/-- The container width `W` of the specification: the `int` in which `1<<scale` is
evaluated has 32 bits. -/
def W : Nat := 32

/-- The sub-expression `(double)(1<<scale)` shared by both macros: the `int` shift,
then the exact conversion to `double`. -/
def scale_factor : ℚ := ((shl_int 1 scale : Int) : ℚ)

/-- The macro `#define to_fixed(x) ((x) * (double)(1<<scale))`. -/
def to_fixed (x : ℚ) : ℚ := x * ((shl_int 1 scale : Int) : ℚ)

/-- The macro `#define from_fixed(x) ((double) (x)/(double)(1<<scale))`. -/
def from_fixed (x : ℚ) : ℚ := x / ((shl_int 1 scale : Int) : ℚ)

/-- The failures the specification names for the fixed-point codec. -/
inductive CodecError where
  | OverflowError
  | ConfigurationError
  deriving DecidableEq, Repr

/-- Outcome of evaluating `to_fixed(x)`. The macro expands to one arithmetic
expression with no branch and no check, so the only outcome is its value. -/
def to_fixed_outcome (x : ℚ) : Except CodecError ℚ := Except.ok (to_fixed x)

/-- Outcome of evaluating `from_fixed(x)`. The macro expands to one arithmetic
expression with no branch and no check, so the only outcome is its value. -/
def from_fixed_outcome (x : ℚ) : Except CodecError ℚ := Except.ok (from_fixed x)

/-! ## Bit-field view of a float (lines 17-24) -/

/-- Read of a bit-field of `width` bits placed `offset` bits above the least
significant bit of its storage unit: shift right, then mask. -/
def bitfield (unit offset width : Nat) : Nat := (unit >>> offset) &&& (2 ^ width - 1)

/-- Offset of the `k`-th bit-field of a struct whose fields have the given widths, in
declaration order: the fields before it are packed from bit 0 upwards. -/
def field_offset (widths : List Nat) (k : Nat) : Nat := (widths.take k).sum

/-- The union `float_cast`: 32 bits of storage, held as the bit pattern of the member
`float f`; the member `parts` is a second view of the same bits. -/
structure float_cast where
  /-- The 32-bit pattern of the member `f`. -/
  f : Nat

/-- Widths of the bit-fields of the anonymous struct inside `float_cast`, in
declaration order: `mantisa : 23`, `exponent : 8`, `sign : 1`. -/
def float_cast_widths : List Nat := [23, 8, 1]

/-- The values read through the member `parts` of `float_cast`. -/
structure float_cast_parts where
  /-- The field `unsigned int mantisa : 23`. -/
  mantisa : Nat
  /-- The field `unsigned int exponent : 8`. -/
  exponent : Nat
  /-- The field `unsigned int sign : 1`. -/
  sign : Nat
  deriving DecidableEq, Repr

/-- Reading `d.parts` after `float_cast d = { .f = ... }`: each bit-field is read from the
storage shared with `f`. -/
def float_cast.parts (d : float_cast) : float_cast_parts :=
  { mantisa := bitfield d.f (field_offset float_cast_widths 0) 23
    exponent := bitfield d.f (field_offset float_cast_widths 1) 8
    sign := bitfield d.f (field_offset float_cast_widths 2) 1 }

/-! ## Rendering of an object representation (lines 44-57) -/

/-- The bytes of an object of `size` bytes holding the unsigned value `v`, in memory
order (least-significant byte first). -/
def object_bytes (size v : Nat) : List Nat :=
  (List.range size).map fun i => v / 256 ^ i % 256

/-- The characters `printf("%u", n)` writes: the decimal numeral of `n`. -/
def printf_u (n : Nat) : List Char := (Nat.repr n).toList

/-- The inner loop `for (j = 7; j >= 0; j--)` of `printBits`, entered with the current
values of `i`, `j` and of the output: each iteration reads `b[i]`, stores
`(b[i] >> j) & 1` in the `unsigned char byte` and prints it with `%u`. -/
def printBits_inner (b : List Nat) (i j : Int) (out : List Char) : Option (List Char) :=
  if 0 ≤ j then
    (if 0 ≤ i then b[i.toNat]? else none).bind fun bi =>
      printBits_inner b i (j - 1) (out ++ printf_u (((bi >>> j.toNat) &&& 1) % 256))
  else some out
termination_by (j + 1).toNat
decreasing_by omega

/-- The outer loop `for (i = size-1; i >= 0; i--)` of `printBits`, entered with the
current values of `i` and of the output. -/
def printBits_outer (b : List Nat) (i : Int) (out : List Char) : Option (List Char) :=
  if 0 ≤ i then
    (printBits_inner b i 7 out).bind fun out => printBits_outer b (i - 1) out
  else some out
termination_by (i + 1).toNat
decreasing_by omega

/-- The function `printBits(size, ptr)`, with `b` the bytes `ptr` points to. The
initialisation `i = size-1` computes `size-1` in `size_t` and converts it to `int`;
after the loops `puts("")` writes a newline. The result is everything written. -/
def printBits (size : Nat) (b : List Nat) : Option (List Char) :=
  (printBits_outer b (wrap_int (wrap_size_t ((size : Int) - 1))) []).map
    fun out => out ++ ['\n']

/-! ## Reference definitions for the rendering claims -/

/-- The digit for bit `j` of `x`. -/
def bit_char (x j : Nat) : Char := if x.testBit j then '1' else '0'

/-- The digits of bits `n-1, ..., 0` of `x`, most significant first. -/
def bit_chars (x : Nat) : Nat → List Char
  | 0 => []
  | n + 1 => bit_char x n :: bit_chars x n

/-- The digits of bytes `n-1, ..., 0` of `b`, eight per byte, highest index first. -/
def byte_chars (b : List Nat) : Nat → List Char
  | 0 => []
  | n + 1 => bit_chars (b.getD n 0) 8 ++ byte_chars b n

/-- The integer a byte sequence denotes, least-significant byte first. -/
def le_value : List Nat → Nat
  | [] => 0
  | x :: xs => x + 256 * le_value xs

/-- Reading of a binary numeral, most significant digit first, continuing from the
value `acc` of the digits already read; a character other than 0 or 1 is rejected. -/
def parse_bits_from (acc : Nat) : List Char → Option Nat
  | [] => some acc
  | c :: cs =>
    if c = '0' then parse_bits_from (2 * acc) cs
    else if c = '1' then parse_bits_from (2 * acc + 1) cs
    else none

/-- Reading of a binary numeral, most significant digit first. -/
def parse_bits (s : List Char) : Option Nat := parse_bits_from 0 s

/-! ## The struct `parts` (lines 26-30) -/

/-- Widths of the bit-fields of the struct `parts`, in declaration order:
`mantisa : 32`, `exponent : 31`, `sign : 1`. The first field fills one 32-bit unit and
the other two fill the next one, so no field straddles a unit and the struct is 64
bits, packed from bit 0 upwards. -/
def parts_widths : List Nat := [32, 31, 1]

/-- The struct `parts`: the values of its three bit-fields. -/
structure parts where
  /-- The field `unsigned int mantisa : 32`. -/
  mantisa : Nat
  /-- The field `unsigned int exponent : 31`. -/
  exponent : Nat
  /-- The field `unsigned int sign : 1`. -/
  sign : Nat
  deriving DecidableEq, Repr

/-- The fields of a `parts` object whose 64 bits of storage hold the pattern `d`. -/
def parts_view (d : Nat) : parts :=
  { mantisa := bitfield d (field_offset parts_widths 0) 32
    exponent := bitfield d (field_offset parts_widths 1) 31
    sign := bitfield d (field_offset parts_widths 2) 1 }

/-- The sign field of the IEEE 754 binary64 layout: bit 63. -/
def binary64_sign (d : Nat) : Nat := d / 2 ^ 63 % 2

/-- The exponent field of the IEEE 754 binary64 layout: the 11 bits 52..62. -/
def binary64_exponent (d : Nat) : Nat := d / 2 ^ 52 % 2 ^ 11

/-- The mantissa field of the IEEE 754 binary64 layout: the 52 bits 0..51. -/
def binary64_mantissa (d : Nat) : Nat := d % 2 ^ 52

/-! ## get_mantissa (lines 36-42) -/

/-- The characters `printf("%b", n)` writes: the binary numeral of `n`, without
leading zeros. -/
def printf_b (n : Nat) : List Char := Nat.toDigits 2 n

/-- The function `get_mantissa(x)`, with `x` given by its 64-bit pattern. The pointer
`(unsigned int*)&x` addresses the first four bytes of the object; `*ptr` reads them as
an `unsigned int`. The result is everything written and the value returned. -/
def get_mantissa (x : Nat) : Option (List Char × Nat) :=
  (printBits 4 (object_bytes 4 (le_value ((object_bytes 8 x).take 4)))).map
    fun out => (printf_b (le_value ((object_bytes 8 x).take 4)) ++ ['\n'] ++ out,
      le_value ((object_bytes 8 x).take 4))

/-! ## printBits with a record of its run -/

/-- What a run of `printBits` has done so far: the characters written, the indices
`i` of the reads `b[i]` in the order they were made, and the numbers of iterations of
the outer and of the inner loop body. -/
structure PrintRun where
  /-- The characters written. -/
  out : List Char
  /-- The indices read, oldest first. -/
  reads : List Int
  /-- Iterations of the outer loop body begun. -/
  outer_iterations : Nat
  /-- Iterations of the inner loop body made. -/
  inner_iterations : Nat
  deriving DecidableEq, Repr

/-- The inner loop of `printBits`, as `printBits_inner`, recording each read and each
iteration. -/
def printBits_inner_run (b : List Nat) (i j : Int) (r : PrintRun) : Option PrintRun :=
  if 0 ≤ j then
    (if 0 ≤ i then b[i.toNat]? else none).bind fun bi =>
      printBits_inner_run b i (j - 1)
        { out := r.out ++ printf_u (((bi >>> j.toNat) &&& 1) % 256)
          reads := r.reads ++ [i]
          outer_iterations := r.outer_iterations
          inner_iterations := r.inner_iterations + 1 }
  else some r
termination_by (j + 1).toNat
decreasing_by omega

/-- The outer loop of `printBits`, as `printBits_outer`, recording each iteration. -/
def printBits_outer_run (b : List Nat) (i : Int) (r : PrintRun) : Option PrintRun :=
  if 0 ≤ i then
    (printBits_inner_run b i 7
      { out := r.out
        reads := r.reads
        outer_iterations := r.outer_iterations + 1
        inner_iterations := r.inner_iterations }).bind
      fun r => printBits_outer_run b (i - 1) r
  else some r
termination_by (i + 1).toNat
decreasing_by omega

/-- The function `printBits(size, ptr)`, as `printBits`, with the record of its run. -/
def printBits_run (size : Nat) (b : List Nat) : Option PrintRun :=
  (printBits_outer_run b (wrap_int (wrap_size_t ((size : Int) - 1)))
    { out := [], reads := [], outer_iterations := 0, inner_iterations := 0 }).map
    fun r => { out := r.out ++ ['\n']
               reads := r.reads
               outer_iterations := r.outer_iterations
               inner_iterations := r.inner_iterations }

/-- The reads of a run over bytes `n-1, ..., 0`: eight reads of each index, highest
index first. -/
def read_seq : Nat → List Int
  | 0 => []
  | n + 1 => List.replicate 8 (n : Int) ++ read_seq n

/-! ## Theorems -/

/-- The `int` expression `1<<scale` does not fit 32 bits and evaluates to `-2^31`. -/
theorem shl_int_one_scale : shl_int 1 scale = -2 ^ 31 := by decide

theorem scale_factor_eq : scale_factor = -2 ^ 31 := by
  unfold scale_factor; rw [shl_int_one_scale]; norm_num

theorem to_fixed_eq (x : ℚ) : to_fixed x = x * (-2 ^ 31) := by
  unfold to_fixed; rw [shl_int_one_scale]; norm_num

theorem from_fixed_eq (x : ℚ) : from_fixed x = x / (-2 ^ 31) := by
  unfold from_fixed; rw [shl_int_one_scale]; norm_num

theorem from_fixed_to_fixed (x : ℚ) : from_fixed (to_fixed x) = x := by
  rw [from_fixed_eq, to_fixed_eq]; field_simp

theorem denormalize_in_normalize_in (lo hi x : ℚ) (h : lo < hi) :
    denormalize_in lo hi (normalize_in lo hi x) = x := by
  have hne : hi - lo ≠ 0 := sub_ne_zero.mpr (ne_of_gt h)
  unfold denormalize_in normalize_in
  field_simp

theorem abs_to_fixed (x : ℚ) : |to_fixed x| = |x| * 2 ^ scale := by
  rw [to_fixed_eq, abs_mul]; unfold scale; norm_num

theorem abs_from_fixed (x : ℚ) : |from_fixed x| = |x| / 2 ^ scale := by
  rw [from_fixed_eq, abs_div]; unfold scale; norm_num

theorem normalize_eq (x : ℚ) : normalize x = (x - 240) / 59760 := by
  unfold normalize min max; norm_num

theorem denormalize_eq (x : ℚ) : denormalize x = x * 59760 + 240 := by
  unfold denormalize min max; norm_num

/-- C1: over exact arithmetic the range round trip is the identity, for the configured
range (min = 240, max = 60000) and for every range with min < max, so the round-trip
error is below every positive ε. -/
theorem range_round_trip (lo hi x ε : ℚ) (h : lo < hi) (hε : 0 < ε) :
    denormalize (normalize x) = x ∧
    denormalize_in lo hi (normalize_in lo hi x) = x ∧
    |denormalize (normalize x) - x| < ε ∧
    |denormalize_in lo hi (normalize_in lo hi x) - x| < ε := by
  have h1 : denormalize (normalize x) = x := by
    rw [normalize_eq, denormalize_eq]; field_simp
  have h2 := denormalize_in_normalize_in lo hi x h
  refine ⟨h1, h2, ?_, ?_⟩
  · rw [h1]; simpa using hε
  · rw [h2]; simpa using hε

/-- C1 (witness): the round trip at x = 12345, on the range [7, 9], with ε = 1e-9. -/
theorem range_round_trip_witness :
    ((7 : ℚ) < 9 ∧ (0 : ℚ) < 1 / 1000000000) ∧
    (denormalize (normalize 12345) = 12345 ∧
      denormalize_in 7 9 (normalize_in 7 9 12345) = 12345 ∧
      |denormalize (normalize 12345) - 12345| < 1 / 1000000000 ∧
      |denormalize_in 7 9 (normalize_in 7 9 12345) - 12345| < 1 / 1000000000) :=
  ⟨⟨by norm_num, by norm_num⟩,
    range_round_trip 7 9 12345 (1 / 1000000000) (by norm_num) (by norm_num)⟩

theorem int_log_eq (x : ℚ) (e : ℤ) (h1 : 2 ^ e ≤ x) (h2 : x < 2 ^ (e + 1)) :
    Int.log 2 x = e := by
  have hx : 0 < x := lt_of_lt_of_le (by positivity) h1
  have a : e ≤ Int.log 2 x :=
    (Int.zpow_le_iff_le_log (by norm_num) hx).mp (by exact_mod_cast h1)
  have b : Int.log 2 x < e + 1 :=
    (Int.lt_zpow_iff_log_lt (by norm_num) hx).mp (by exact_mod_cast h2)
  omega

theorem round_half_even_eq (y : ℚ) (n : ℤ) (h1 : (n : ℚ) - 1 / 2 < y)
    (h2 : y < n + 1 / 2) : round_half_even y = n := by
  unfold round_half_even
  by_cases h : (n : ℚ) ≤ y
  · have hf : ⌊y⌋ = n := by rw [Int.floor_eq_iff]; constructor <;> linarith
    rw [hf, if_pos (by linarith)]
  · have hf : ⌊y⌋ = n - 1 := by
      rw [Int.floor_eq_iff]; push_cast; constructor <;> linarith
    rw [hf]; push_cast
    rw [if_neg (by linarith), if_pos (by linarith)]
    ring

/-- The rounding of a positive `x` with exponent `e` whose scaled value lies within
one half of the integer `n`. -/
theorem round_binary_eq (p : Nat) (x : ℚ) (e n : ℤ) (h1 : 2 ^ e ≤ x) (h2 : x < 2 ^ (e + 1))
    (hn1 : (n : ℚ) - 1 / 2 < x / 2 ^ (e - p + 1)) (hn2 : x / 2 ^ (e - p + 1) < n + 1 / 2) :
    round_binary p x = n * 2 ^ (e - p + 1) := by
  have hx : 0 < x := lt_of_lt_of_le (by positivity) h1
  unfold round_binary
  rw [if_neg (ne_of_gt hx), abs_of_pos hx, int_log_eq x e h1 h2,
    round_half_even_eq _ n hn1 hn2]

/-- The double quotient 2.0 / 59760.0. -/
theorem to_double_quotient : to_double (2 / 59760) = 4938887302198006 / 2 ^ 67 := by
  unfold to_double
  rw [round_binary_eq 53 _ (-15) 4938887302198006] <;> norm_num

/-- The value `main` stores in `m`, step by step: 242 is a float, both differences are
exact doubles, the quotient rounds to 4938887302198006 / 2^67 and its store to float
rounds to 9199394 / 2^38. -/
theorem main_m_eq : main_m = 9199394 / 2 ^ 38 := by
  have h1 : to_float 242 = 242 := by
    unfold to_float
    rw [round_binary_eq 24 242 7 15859712] <;> norm_num
  have h2 : to_double (242 - min) = 2 := by
    unfold to_double min
    rw [round_binary_eq 53 _ 1 (2 ^ 52)] <;> norm_num
  have h3 : to_double (max - min) = 59760 := by
    unfold to_double min max
    rw [round_binary_eq 53 _ 15 (59760 * 2 ^ 37)] <;> norm_num
  have h5 : to_float (4938887302198006 / 2 ^ 67) = 9199394 / 2 ^ 38 := by
    unfold to_float
    rw [round_binary_eq 24 _ (-15) 9199394] <;> norm_num
  unfold main_m
  rw [h1, h2, h3, to_double_quotient, h5]

/-- C2 (counterexample): the value main computes for normalize(242) is the float
9199394 / 2^38 (bit pattern 0x380C5F22), which is not 1/29880; already the double
quotient 4938887302198006 / 2^67 is not 1/29880. -/
theorem main_m_not_exact :
    main_m = 9199394 / 2 ^ 38 ∧ main_m ≠ 1 / 29880 ∧
    to_double (2 / 59760) ≠ 1 / 29880 := by
  refine ⟨main_m_eq, ?_, ?_⟩
  · rw [main_m_eq]; norm_num
  · rw [to_double_quotient]; norm_num

/-- C2 (amended): over exact arithmetic normalize is the affine map
x ↦ (x - 240) / 59760; it sends 240 to 0, 60000 to 1 and 242 to 1/29880, and
normalize(x) lies in [0, 1] exactly when x lies in [240, 60000]. The value main
computes for normalize(242) is that quotient rounded to double and then to float:
9199394 / 2^38, the float of bit pattern 0x380C5F22 (sign 0, exponent 112, mantisa
810786), within 2^-39 of 1/29880. -/
theorem normalize_unit_interval :
    (∀ x : ℚ, normalize x = (x - 240) / 59760) ∧
    normalize 240 = 0 ∧ normalize 60000 = 1 ∧
    normalize 242 = 1 / 29880 ∧
    (∀ x : ℚ, (0 ≤ normalize x ∧ normalize x ≤ 1) ↔ (240 ≤ x ∧ x ≤ 60000)) ∧
    main_m = to_float (to_double (normalize 242)) ∧
    main_m = 9199394 / 2 ^ 38 ∧
    (float_cast.mk 0x380C5F22).parts = { mantisa := 810786, exponent := 112, sign := 0 } ∧
    main_m = (2 ^ 23 + 810786) / 2 ^ (150 - 112) ∧
    |main_m - 1 / 29880| < 1 / 2 ^ 39 := by
  refine ⟨normalize_eq, ?_, ?_, ?_, ?_, ?_, main_m_eq, by decide, ?_, ?_⟩
  · rw [normalize_eq]; norm_num
  · rw [normalize_eq]; norm_num
  · rw [normalize_eq]; norm_num
  · intro x
    rw [normalize_eq, le_div_iff₀ (by norm_num : (0 : ℚ) < 59760),
      div_le_iff₀ (by norm_num : (0 : ℚ) < 59760)]
    constructor
    · rintro ⟨h1, h2⟩; constructor <;> linarith
    · rintro ⟨h1, h2⟩; constructor <;> linarith
  · have h : normalize 242 = 2 / 59760 := by rw [normalize_eq]; norm_num
    have h5 : to_float (4938887302198006 / 2 ^ 67) = 9199394 / 2 ^ 38 := by
      unfold to_float
      rw [round_binary_eq 24 _ (-15) 9199394] <;> norm_num
    rw [main_m_eq, h, to_double_quotient, h5]
  · rw [main_m_eq]; norm_num
  · rw [main_m_eq, abs_lt]; constructor <;> norm_num

/-- C3 (counterexample): at x = 3 / 2^32 the macro yields -3/2, which is not
round(x * 2^31) = 2, nor any integer. -/
theorem to_fixed_not_rounded :
    to_fixed (3 / 2 ^ 32) = -3 / 2 ∧
    round ((3 / 2 ^ 32 : ℚ) * 2 ^ scale) = 2 ∧
    to_fixed (3 / 2 ^ 32) ≠ ((round ((3 / 2 ^ 32 : ℚ) * 2 ^ scale) : ℤ) : ℚ) := by
  have hv : to_fixed (3 / 2 ^ 32) = -3 / 2 := by rw [to_fixed_eq]; norm_num
  have hr : round ((3 / 2 ^ 32 : ℚ) * 2 ^ scale) = 2 := by
    rw [round_eq, Int.floor_eq_iff]; unfold scale; norm_num
  refine ⟨hv, hr, ?_⟩
  rw [hv, hr]; norm_num

/-- C3 (amended): for every x, to_fixed(x) is exactly the product x * F of x and the
scale factor F = (double)(1<<scale), with no rounding to an integer; F is a fixed
number of magnitude 2^scale, so the magnitude of to_fixed(x) is |x| * 2^scale. -/
theorem to_fixed_unrounded :
    (∀ x : ℚ, to_fixed x = x * scale_factor) ∧
    |scale_factor| = 2 ^ scale ∧
    (∀ x : ℚ, |to_fixed x| = |x| * 2 ^ scale) ∧
    scale = 31 := by
  refine ⟨fun x => rfl, ?_, abs_to_fixed, rfl⟩
  rw [scale_factor_eq]; unfold scale; norm_num

/-- C4 (failing input): from_fixed(1) is -1/2^31, not 1/2^31, because the divisor
(double)(1<<scale) is evaluated in 32-bit int and equals -2^31. -/
theorem from_fixed_one :
    from_fixed ((1 : ℤ) : ℚ) = -(1 / 2 ^ 31) ∧
    from_fixed ((1 : ℤ) : ℚ) ≠ ((1 : ℤ) : ℚ) / 2 ^ scale := by
  have hv : from_fixed ((1 : ℤ) : ℚ) = -(1 / 2 ^ 31) := by rw [from_fixed_eq]; norm_num
  refine ⟨hv, ?_⟩
  rw [hv]; unfold scale; norm_num

/-- C5: with exact arithmetic, from_fixed(to_fixed(x)) differs from x by at most
2^-scale / 2, hence by at most 2^-scale, for every x (in particular for every x in
the encodable range); scale = 31. -/
theorem fixed_round_trip (x : ℚ) :
    |from_fixed (to_fixed x) - x| ≤ 1 / 2 ^ scale / 2 ∧
    |from_fixed (to_fixed x) - x| ≤ 1 / 2 ^ scale ∧
    scale = 31 := by
  rw [from_fixed_to_fixed, sub_self, abs_zero]
  exact ⟨by positivity, by positivity, rfl⟩

/-- C6 (counterexample): x = 1 has x * 2^scale = 2^31 above the signed 32-bit range,
and to_fixed(1) evaluates to the number -2147483648, not to an OverflowError. -/
theorem to_fixed_no_overflow_error :
    (2 ^ 31 - 1 < (1 : ℚ) * 2 ^ scale) ∧
    to_fixed_outcome 1 = Except.ok (-2147483648) ∧
    to_fixed_outcome 1 ≠ Except.error CodecError.OverflowError := by
  have hv : to_fixed_outcome 1 = Except.ok (-2147483648) := by
    unfold to_fixed_outcome; rw [to_fixed_eq]; norm_num
  refine ⟨by unfold scale; norm_num, hv, ?_⟩
  rw [hv]; simp

/-- C6 (amended): to_fixed has no overflow check and no error outcome: for every x
with x * 2^scale outside [-2^31, 2^31 - 1] it yields a number, the product x * F of x
and the scale factor F = (double)(1<<scale) of magnitude 2^scale; the magnitude of
the result is |x * 2^scale|, which exceeds 2^31 - 1. -/
theorem to_fixed_out_of_range (x : ℚ)
    (h : x * 2 ^ scale < -2 ^ 31 ∨ 2 ^ 31 - 1 < x * 2 ^ scale) :
    to_fixed_outcome x = Except.ok (x * scale_factor) ∧
    |scale_factor| = 2 ^ scale ∧
    |x * scale_factor| = |x * 2 ^ scale| ∧
    2 ^ 31 - 1 < |x * scale_factor| := by
  have hf : |scale_factor| = 2 ^ scale := by
    rw [scale_factor_eq]; unfold scale; norm_num
  have hm : |x * scale_factor| = |x * 2 ^ scale| := by
    rw [abs_mul, abs_mul, hf]; simp
  refine ⟨rfl, hf, hm, ?_⟩
  rw [hm]
  rcases h with h | h
  · have := neg_le_abs (x * 2 ^ scale)
    linarith
  · exact lt_of_lt_of_le h (le_abs_self _)

/-- C6 (witness): x = 2, where x * 2^scale = 2^32 is above the signed 32-bit range. -/
theorem to_fixed_out_of_range_witness :
    ((2 : ℚ) * 2 ^ scale < -2 ^ 31 ∨ 2 ^ 31 - 1 < (2 : ℚ) * 2 ^ scale) ∧
    (to_fixed_outcome 2 = Except.ok (2 * scale_factor) ∧
      |scale_factor| = 2 ^ scale ∧
      |2 * scale_factor| = |(2 : ℚ) * 2 ^ scale| ∧
      2 ^ 31 - 1 < |2 * scale_factor|) :=
  ⟨Or.inr (by unfold scale; norm_num),
    to_fixed_out_of_range 2 (Or.inr (by unfold scale; norm_num))⟩

/-- C7 (counterexample): under scale = 31 on the 32-bit container (scale >= W - 1)
both macros still produce numbers: to_fixed(1/2) = -2^30 and from_fixed(2^30) = -1/2;
neither outcome is a ConfigurationError. -/
theorem codec_not_rejected :
    W - 1 ≤ scale ∧
    to_fixed_outcome (1 / 2) = Except.ok (-1073741824) ∧
    from_fixed_outcome 1073741824 = Except.ok (-1 / 2) ∧
    to_fixed_outcome (1 / 2) ≠ Except.error CodecError.ConfigurationError ∧
    from_fixed_outcome 1073741824 ≠ Except.error CodecError.ConfigurationError := by
  have h1 : to_fixed_outcome (1 / 2) = Except.ok (-1073741824) := by
    unfold to_fixed_outcome; rw [to_fixed_eq]; norm_num
  have h2 : from_fixed_outcome 1073741824 = Except.ok (-1 / 2) := by
    unfold from_fixed_outcome; rw [from_fixed_eq]; norm_num
  refine ⟨by decide, h1, h2, ?_, ?_⟩
  · rw [h1]; simp
  · rw [h2]; simp

/-- C7 (amended): the configuration scale = 31 on the 32-bit container
(scale >= W - 1) is not rejected, there being no configuration check: the scale
factor is nonzero and, for every input, to_fixed and from_fixed each produce a
number, of magnitude |x| * 2^scale and |x| / 2^scale. -/
theorem codec_accepts_scale_31 :
    scale = 31 ∧ W = 32 ∧ W - 1 ≤ scale ∧ scale_factor ≠ 0 ∧
    ∀ x : ℚ,
      (∃ v, to_fixed_outcome x = Except.ok v ∧ |v| = |x| * 2 ^ scale) ∧
      (∃ v, from_fixed_outcome x = Except.ok v ∧ |v| = |x| / 2 ^ scale) := by
  refine ⟨rfl, rfl, by decide, by rw [scale_factor_eq]; norm_num, fun x => ⟨?_, ?_⟩⟩
  · exact ⟨to_fixed x, rfl, abs_to_fixed x⟩
  · exact ⟨from_fixed x, rfl, abs_from_fixed x⟩

/-! ### printBits -/

theorem printf_u_bit (x j : Nat) : printf_u (((x >>> j) &&& 1) % 256) = [bit_char x j] := by
  unfold bit_char Nat.testBit
  rw [Nat.and_comm 1, Nat.and_one_is_mod]
  have h : (x >>> j) % 2 < 2 := Nat.mod_lt _ (by decide)
  generalize (x >>> j) % 2 = r at h
  interval_cases r
  · decide
  · decide

theorem printBits_inner_eq (b : List Nat) (i : Int) (bi : Nat) (hi : 0 ≤ i)
    (hb : b[i.toNat]? = some bi) (n : Nat) :
    ∀ out, printBits_inner b i ((n : Int) - 1) out = some (out ++ bit_chars bi n) := by
  induction n with
  | zero =>
    intro out
    unfold printBits_inner
    simp [bit_chars]
  | succ n ih =>
    intro out
    unfold printBits_inner
    have h0 : (0 : Int) ≤ ((n + 1 : Nat) : Int) - 1 := by omega
    have h1 : (((n + 1 : Nat) : Int) - 1).toNat = n := by omega
    have h2 : ((n + 1 : Nat) : Int) - 1 - 1 = (n : Int) - 1 := by omega
    rw [if_pos h0, if_pos hi, hb, Option.some_bind, h1, h2, printf_u_bit, ih]
    simp [bit_chars]

theorem printBits_outer_eq (b : List Nat) (n : Nat) (hn : n ≤ b.length) :
    ∀ out, printBits_outer b ((n : Int) - 1) out = some (out ++ byte_chars b n) := by
  induction n with
  | zero =>
    intro out
    unfold printBits_outer
    simp [byte_chars]
  | succ n ih =>
    intro out
    unfold printBits_outer
    have h0 : (0 : Int) ≤ ((n + 1 : Nat) : Int) - 1 := by omega
    have h1 : (((n + 1 : Nat) : Int) - 1).toNat = n := by omega
    have h2 : ((n + 1 : Nat) : Int) - 1 - 1 = (n : Int) - 1 := by omega
    have hlt : n < b.length := by omega
    have hb : b[(((n + 1 : Nat) : Int) - 1).toNat]? = some (b.getD n 0) := by
      rw [h1]; simp [List.getD, List.getElem?_eq_getElem hlt]
    have hin := printBits_inner_eq b (((n + 1 : Nat) : Int) - 1) (b.getD n 0) h0 hb 8 out
    have h7 : ((8 : Nat) : Int) - 1 = 7 := by norm_num
    rw [h7] at hin
    rw [if_pos h0, hin, Option.some_bind, h2, ih (by omega)]
    simp [byte_chars]

theorem wrap_index (size : Nat) (hsize : size ≤ 2 ^ 31) :
    wrap_int (wrap_size_t ((size : Int) - 1)) = (size : Int) - 1 := by
  unfold wrap_int wrap_size_t
  omega

theorem printBits_eq (size : Nat) (b : List Nat) (hlen : size ≤ b.length)
    (hsize : size ≤ 2 ^ 31) :
    printBits size b = some (byte_chars b size ++ ['\n']) := by
  unfold printBits
  rw [wrap_index size hsize, printBits_outer_eq b size hlen]
  simp


theorem bit_chars_length (x n : Nat) : (bit_chars x n).length = n := by
  induction n with
  | zero => rfl
  | succ n ih => simp [bit_chars, ih]

theorem byte_chars_length (b : List Nat) (n : Nat) : (byte_chars b n).length = 8 * n := by
  induction n with
  | zero => rfl
  | succ n ih => simp [byte_chars, bit_chars_length, ih]; omega

theorem bit_char_cases (x j : Nat) : bit_char x j = '0' ∨ bit_char x j = '1' := by
  unfold bit_char; split <;> simp

theorem mem_bit_chars (x n : Nat) (c : Char) (h : c ∈ bit_chars x n) : c = '0' ∨ c = '1' := by
  induction n with
  | zero => simp [bit_chars] at h
  | succ n ih =>
    simp only [bit_chars, List.mem_cons] at h
    rcases h with h | h
    · rw [h]; exact bit_char_cases x n
    · exact ih h

theorem mem_byte_chars (b : List Nat) (n : Nat) (c : Char) (h : c ∈ byte_chars b n) :
    c = '0' ∨ c = '1' := by
  induction n with
  | zero => simp [byte_chars] at h
  | succ n ih =>
    simp only [byte_chars, List.mem_append] at h
    rcases h with h | h
    · exact mem_bit_chars _ _ c h
    · exact ih h

theorem bit_chars_get (x : Nat) (n : Nat) :
    ∀ k, k < n → (bit_chars x n)[k]? = some (bit_char x (n - 1 - k)) := by
  induction n with
  | zero => intro k hk; omega
  | succ n ih =>
    intro k hk
    cases k with
    | zero => simp [bit_chars]
    | succ k =>
      simp only [bit_chars, List.getElem?_cons_succ]
      rw [ih k (by omega)]
      congr 2
      omega

theorem byte_chars_get (b : List Nat) (n : Nat) :
    ∀ k, k < 8 * n →
      (byte_chars b n)[k]? = some (bit_char (b.getD (n - 1 - k / 8) 0) (7 - k % 8)) := by
  induction n with
  | zero => intro k hk; omega
  | succ n ih =>
    intro k hk
    simp only [byte_chars]
    by_cases h8 : k < 8
    · rw [List.getElem?_append_left (by rw [bit_chars_length]; exact h8), bit_chars_get _ 8 k h8]
      have e1 : n + 1 - 1 - k / 8 = n := by omega
      have e2 : 8 - 1 - k = 7 - k % 8 := by omega
      rw [e1, e2]
    · rw [List.getElem?_append_right (by rw [bit_chars_length]; omega), bit_chars_length,
        ih (k - 8) (by omega)]
      have e1 : n - 1 - (k - 8) / 8 = n + 1 - 1 - k / 8 := by omega
      have e2 : (k - 8) % 8 = k % 8 := by omega
      rw [e1, e2]

theorem le_value_testBit (b : List Nat) (hb : ∀ x ∈ b, x < 256) :
    ∀ i j, i < b.length → j < 8 →
      (le_value b).testBit (8 * i + j) = (b.getD i 0).testBit j := by
  induction b with
  | nil => intro i j hi; simp at hi
  | cons x xs ih =>
    intro i j hi hj
    have hx : x < 2 ^ 8 := hb x (List.mem_cons_self _ _)
    have e : le_value (x :: xs) = 2 ^ 8 * le_value xs + x := by
      simp only [le_value]; omega
    rw [e, Nat.testBit_mul_pow_two_add _ hx]
    cases i with
    | zero => simp [hj]
    | succ i =>
      have h1 : ¬ (8 * (i + 1) + j < 8) := by omega
      have h2 : 8 * (i + 1) + j - 8 = 8 * i + j := by omega
      rw [if_neg h1, h2, ih (fun y hy => hb y (List.mem_cons_of_mem _ hy)) i j
        (by simpa using hi) hj]
      simp

theorem parse_bits_from_bit_char (x n acc : Nat) (cs : List Char) :
    parse_bits_from acc (bit_char x n :: cs) = parse_bits_from (2 * acc + x / 2 ^ n % 2) cs := by
  unfold bit_char
  rw [Nat.testBit_to_div_mod]
  by_cases hbit : x / 2 ^ n % 2 = 1
  · simp [parse_bits_from, hbit]
  · have h0 : x / 2 ^ n % 2 = 0 := by omega
    simp [parse_bits_from, h0]

theorem parse_bits_from_bit_chars (x n : Nat) :
    ∀ acc rest, parse_bits_from acc (bit_chars x n ++ rest)
      = parse_bits_from (acc * 2 ^ n + x % 2 ^ n) rest := by
  induction n with
  | zero => intro acc rest; simp [bit_chars, Nat.mod_one]
  | succ n ih =>
    intro acc rest
    have hm := Nat.mod_pow_succ (x := x) (b := 2) (k := n)
    have hp : 2 ^ (n + 1) = 2 * 2 ^ n := by ring
    simp only [bit_chars, List.cons_append]
    rw [parse_bits_from_bit_char, ih]
    congr 1
    rw [hm, hp]; ring

theorem le_value_take_succ (b : List Nat) :
    ∀ n, n < b.length →
      le_value (b.take (n + 1)) = le_value (b.take n) + 256 ^ n * b.getD n 0 := by
  induction b with
  | nil => intro n hn; simp at hn
  | cons x xs ih =>
    intro n hn
    cases n with
    | zero => simp [le_value]
    | succ n =>
      have := ih n (by simpa using hn)
      simp only [List.take_succ_cons, le_value, this, List.getD_cons_succ]
      ring

theorem parse_bits_from_byte_chars (b : List Nat) (hb : ∀ x ∈ b, x < 256) (n : Nat) :
    n ≤ b.length → ∀ acc rest, parse_bits_from acc (byte_chars b n ++ rest)
      = parse_bits_from (acc * 256 ^ n + le_value (b.take n)) rest := by
  induction n with
  | zero => intro _ acc rest; simp [byte_chars, le_value]
  | succ n ih =>
    intro hn acc rest
    have hlt : n < b.length := by omega
    have hx : b.getD n 0 < 256 := by
      rw [List.getD_eq_getElem _ _ hlt]; exact hb _ (List.getElem_mem _)
    simp only [byte_chars, List.append_assoc]
    rw [parse_bits_from_bit_chars, ih (by omega), le_value_take_succ b n hlt]
    congr 1
    have e : b.getD n 0 % 2 ^ 8 = b.getD n 0 := Nat.mod_eq_of_lt hx
    rw [e]; ring

theorem parse_bits_byte_chars (b : List Nat) (hb : ∀ x ∈ b, x < 256) :
    parse_bits (byte_chars b b.length) = some (le_value b) := by
  have h := parse_bits_from_byte_chars b hb b.length (le_refl _) 0 []
  simp only [List.append_nil, List.take_length, zero_mul, zero_add] at h
  unfold parse_bits
  rw [h]; rfl

theorem object_bytes_lt (size v : Nat) : ∀ x ∈ object_bytes size v, x < 256 := by
  intro x hx
  simp only [object_bytes, List.mem_map] at hx
  obtain ⟨i, _, rfl⟩ := hx
  exact Nat.mod_lt _ (by decide)

theorem object_bytes_length (size v : Nat) : (object_bytes size v).length = size := by
  simp [object_bytes]

theorem le_value_object_bytes_4 (w : Nat) (hw : w < 2 ^ 32) :
    le_value (object_bytes 4 w) = w := by
  have e : object_bytes 4 w
      = [w / 256 ^ 0 % 256, w / 256 ^ 1 % 256, w / 256 ^ 2 % 256, w / 256 ^ 3 % 256] := rfl
  rw [e]
  simp only [le_value]
  norm_num
  omega

theorem bitfield_eq (unit offset width : Nat) :
    bitfield unit offset width = unit / 2 ^ offset % 2 ^ width := by
  unfold bitfield
  rw [Nat.and_pow_two_sub_one_eq_mod, Nat.shiftRight_eq_div_pow]

/-- Everything `printBits` writes, for a buffer of at least `size` bytes and a size
whose predecessor fits `int`. -/
theorem printBits_render (size : Nat) (b : List Nat) (hlen : b.length = size)
    (hb : ∀ x ∈ b, x < 256) (hsize : size ≤ 2 ^ 31) :
    printBits size b = some (byte_chars b size ++ ['\n']) ∧
    (byte_chars b size).length = 8 * size ∧
    (∀ c ∈ byte_chars b size, c = '0' ∨ c = '1') ∧
    (∀ k, k < 8 * size →
      (byte_chars b size)[k]? =
        some (if (le_value b).testBit (8 * size - 1 - k) then '1' else '0')) ∧
    parse_bits (byte_chars b size) = some (le_value b) := by
  refine ⟨printBits_eq size b (by omega) hsize, byte_chars_length b size,
    fun c hc => mem_byte_chars b size c hc, ?_, ?_⟩
  · intro k hk
    rw [byte_chars_get b size k hk]
    have e : 8 * size - 1 - k = 8 * (size - 1 - k / 8) + (7 - k % 8) := by omega
    rw [e, le_value_testBit b hb (size - 1 - k / 8) (7 - k % 8) (by omega) (by omega)]
    rfl
  · rw [← hlen]; exact parse_bits_byte_chars b hb

theorem printBits_4 (w : Nat) (hw : w < 2 ^ 32) :
    printBits 4 (object_bytes 4 w) = some (byte_chars (object_bytes 4 w) 4 ++ ['\n']) ∧
    parse_bits (byte_chars (object_bytes 4 w) 4) = some w := by
  have h := printBits_render 4 (object_bytes 4 w) (object_bytes_length 4 w)
    (object_bytes_lt 4 w) (by norm_num)
  refine ⟨h.1, ?_⟩
  rw [h.2.2.2.2, le_value_object_bytes_4 w hw]

/-- The output for the four bytes of the pattern 0x3F800000 (1.0f). -/
theorem printBits_one_f :
    printBits 4 (object_bytes 4 0x3F800000) =
      some ("00111111100000000000000000000000".toList ++ ['\n']) := by
  rw [(printBits_4 0x3F800000 (by norm_num)).1]
  decide

/-- C8: reading the 32-bit pattern w through float_cast gives mantisa = w mod 2^23,
exponent = (w / 2^23) mod 2^8 and sign = w / 2^31; the pattern 0x3F800000 of 1.0f
gives sign 0, exponent 127, mantisa 0 and the pattern 0xC0200000 of -2.5f gives
sign 1, exponent 128, mantisa 0x200000. -/
theorem float_cast_fields (w : Nat) (hw : w < 2 ^ 32) :
    (float_cast.mk w).parts.mantisa = w % 2 ^ 23 ∧
    (float_cast.mk w).parts.exponent = w / 2 ^ 23 % 2 ^ 8 ∧
    (float_cast.mk w).parts.sign = w / 2 ^ 31 ∧
    (float_cast.mk 0x3F800000).parts = { mantisa := 0, exponent := 127, sign := 0 } ∧
    (float_cast.mk 0xC0200000).parts
      = { mantisa := 0x200000, exponent := 128, sign := 1 } := by
  have o0 : field_offset float_cast_widths 0 = 0 := rfl
  have o1 : field_offset float_cast_widths 1 = 23 := rfl
  have o2 : field_offset float_cast_widths 2 = 31 := rfl
  refine ⟨?_, ?_, ?_, by decide, by decide⟩
  · show bitfield w (field_offset float_cast_widths 0) 23 = _
    rw [o0, bitfield_eq]; simp
  · show bitfield w (field_offset float_cast_widths 1) 8 = _
    rw [o1, bitfield_eq]
  · show bitfield w (field_offset float_cast_widths 2) 1 = _
    rw [o2, bitfield_eq]
    omega

/-- C8 (witness): the decomposition at the pattern 0xC0200000 of -2.5f. -/
theorem float_cast_fields_witness :
    0xC0200000 < 2 ^ 32 ∧
    ((float_cast.mk 0xC0200000).parts.mantisa = 0xC0200000 % 2 ^ 23 ∧
      (float_cast.mk 0xC0200000).parts.exponent = 0xC0200000 / 2 ^ 23 % 2 ^ 8 ∧
      (float_cast.mk 0xC0200000).parts.sign = 0xC0200000 / 2 ^ 31 ∧
      (float_cast.mk 0x3F800000).parts = { mantisa := 0, exponent := 127, sign := 0 } ∧
      (float_cast.mk 0xC0200000).parts
        = { mantisa := 0x200000, exponent := 128, sign := 1 }) :=
  ⟨by decide, float_cast_fields 0xC0200000 (by decide)⟩

/-- C9 (failing input): for size = 2^31 + 1 the initial index (int)(size - 1) is
-2^31, the loop body never runs and, whatever the buffer holds, only the newline is
written: the digit string is empty, not of length 8 * size. -/
theorem printBits_size_above_int (b : List Nat) :
    wrap_int (wrap_size_t (((2147483649 : Nat) : Int) - 1)) = -2147483648 ∧
    printBits 2147483649 b = some ([] ++ ['\n']) ∧
    ([] : List Char).length ≠ 8 * 2147483649 := by
  have hi : wrap_int (wrap_size_t (((2147483649 : Nat) : Int) - 1)) = -2147483648 := by
    decide
  refine ⟨hi, ?_, by decide⟩
  unfold printBits
  rw [hi]
  unfold printBits_outer
  rw [if_neg (by decide)]
  rfl

/-- C10: for every 32-bit pattern w (NaN payloads and the pattern 0x80000000 of -0.0
included) printBits(4, &w) writes a digit string, followed by a newline, that reads
back as an MSB-first binary numeral to exactly w; hence two 32-bit patterns with the
same rendering are equal. -/
theorem render_parse_inverse (w v : Nat) (hw : w < 2 ^ 32) (hv : v < 2 ^ 32) :
    (∃ ds, printBits 4 (object_bytes 4 w) = some (ds ++ ['\n']) ∧
      ds.length = 32 ∧ parse_bits ds = some w) ∧
    (printBits 4 (object_bytes 4 w) = printBits 4 (object_bytes 4 v) → w = v) := by
  have h1 := printBits_4 w hw
  have h2 := printBits_4 v hv
  refine ⟨⟨_, h1.1, by rw [byte_chars_length], h1.2⟩, ?_⟩
  intro h
  rw [h1.1, h2.1] at h
  have e := List.append_cancel_right (Option.some.inj h)
  have := h1.2
  rw [e, h2.2] at this
  exact (Option.some.inj this).symm

/-- C10 (witness): the pattern 0x80000000 of -0.0 against the NaN pattern 0x7FC00001. -/
theorem render_parse_inverse_witness :
    (0x80000000 < 2 ^ 32 ∧ 0x7FC00001 < 2 ^ 32) ∧
    ((∃ ds, printBits 4 (object_bytes 4 0x80000000) = some (ds ++ ['\n']) ∧
        ds.length = 32 ∧ parse_bits ds = some 0x80000000) ∧
      (printBits 4 (object_bytes 4 0x80000000) = printBits 4 (object_bytes 4 0x7FC00001) →
        0x80000000 = 0x7FC00001)) :=
  ⟨⟨by decide, by decide⟩,
    render_parse_inverse 0x80000000 0x7FC00001 (by decide) (by decide)⟩

/-- C11: the configured range satisfies min < max (240 < 60000); the divisor max - min
of normalize is 59760, hence nonzero, and for every x the quotient normalize(x) times
the divisor gives x - min back: the division is well defined for every x. -/
theorem range_invariant :
    min < max ∧ min = 240 ∧ max = 60000 ∧ max - min = 59760 ∧ max - min ≠ 0 ∧
    ∀ x : ℚ, normalize x * (max - min) = x - min := by
  have hd : max - min = 59760 := by unfold min max; norm_num
  have hne : max - min ≠ 0 := by rw [hd]; norm_num
  refine ⟨by unfold min max; norm_num, rfl, rfl, hd, hne, fun x => ?_⟩
  unfold normalize
  exact div_mul_cancel₀ _ hne

/-- C12 (failing configuration): the constant scale is 31 = W - 1, so scale < W - 1
does not hold, and the shift 1<<scale of the two macros does not fit the 32-bit int:
it evaluates to -2^31 instead of 2^31. -/
theorem scale_headroom_violated :
    scale = 31 ∧ W - 1 = 31 ∧ ¬ (scale < W - 1) ∧
    shl_int 1 scale = -2 ^ 31 ∧ shl_int 1 scale ≠ 2 ^ scale := by
  decide

/-- C13: for every x with 240 <= x <= 60000 the encoded value to_fixed(normalize(x)),
with 1<<scale evaluated in 32-bit int, lies in [-2^31, 2^31 - 1] (it is in fact between
-2^31 and 0). -/
theorem pipeline_range (x : ℚ) (hlo : 240 ≤ x) (hhi : x ≤ 60000) :
    -2 ^ 31 ≤ to_fixed (normalize x) ∧ to_fixed (normalize x) ≤ 2 ^ 31 - 1 ∧
    to_fixed (normalize x) ≤ 0 := by
  have h0 : 0 ≤ normalize x := by
    rw [normalize_eq]; exact div_nonneg (by linarith) (by norm_num)
  have h1 : normalize x ≤ 1 := by
    rw [normalize_eq, div_le_iff₀ (by norm_num : (0 : ℚ) < 59760)]; linarith
  rw [to_fixed_eq]
  refine ⟨?_, ?_, ?_⟩ <;> nlinarith

/-- C13 (witness): the upper end x = 60000, encoded as -2^31. -/
theorem pipeline_range_witness :
    ((240 : ℚ) ≤ 60000 ∧ (60000 : ℚ) ≤ 60000) ∧
    (-2 ^ 31 ≤ to_fixed (normalize 60000) ∧ to_fixed (normalize 60000) ≤ 2 ^ 31 - 1 ∧
      to_fixed (normalize 60000) ≤ 0) :=
  ⟨⟨by norm_num, by norm_num⟩, pipeline_range 60000 (by norm_num) (by norm_num)⟩

/-- C14: for every 32-bit pattern w (NaN and infinity patterns included) the fields
read through float_cast satisfy sign < 2, exponent < 2^8, mantisa < 2^23 and
sign * 2^31 + exponent * 2^23 + mantisa = w. -/
theorem float_cast_lossless (w : Nat) (hw : w < 2 ^ 32) :
    (float_cast.mk w).parts.sign < 2 ∧
    (float_cast.mk w).parts.exponent < 2 ^ 8 ∧
    (float_cast.mk w).parts.mantisa < 2 ^ 23 ∧
    (float_cast.mk w).parts.sign * 2 ^ 31 + (float_cast.mk w).parts.exponent * 2 ^ 23
      + (float_cast.mk w).parts.mantisa = w := by
  have o0 : field_offset float_cast_widths 0 = 0 := rfl
  have o1 : field_offset float_cast_widths 1 = 23 := rfl
  have o2 : field_offset float_cast_widths 2 = 31 := rfl
  have hm : (float_cast.mk w).parts.mantisa = w / 2 ^ 0 % 2 ^ 23 := by
    show bitfield w (field_offset float_cast_widths 0) 23 = _
    rw [o0, bitfield_eq]
  have he : (float_cast.mk w).parts.exponent = w / 2 ^ 23 % 2 ^ 8 := by
    show bitfield w (field_offset float_cast_widths 1) 8 = _
    rw [o1, bitfield_eq]
  have hs : (float_cast.mk w).parts.sign = w / 2 ^ 31 % 2 ^ 1 := by
    show bitfield w (field_offset float_cast_widths 2) 1 = _
    rw [o2, bitfield_eq]
  rw [hm, he, hs]
  norm_num
  omega

/-- C14 (witness): the decomposition of the NaN pattern 0x7FC00001. -/
theorem float_cast_lossless_witness :
    0x7FC00001 < 2 ^ 32 ∧
    ((float_cast.mk 0x7FC00001).parts.sign < 2 ∧
      (float_cast.mk 0x7FC00001).parts.exponent < 2 ^ 8 ∧
      (float_cast.mk 0x7FC00001).parts.mantisa < 2 ^ 23 ∧
      (float_cast.mk 0x7FC00001).parts.sign * 2 ^ 31
        + (float_cast.mk 0x7FC00001).parts.exponent * 2 ^ 23
        + (float_cast.mk 0x7FC00001).parts.mantisa = 0x7FC00001) :=
  ⟨by decide, float_cast_lossless 0x7FC00001 (by decide)⟩

/-- C16: with 1<<scale evaluated in 32-bit wrap-around int the scale factor is -2^31;
for every x, to_fixed(x) = -2^31 * x and from_fixed(x) = -x / 2^31 (in particular for
every integer n); to_fixed is strictly decreasing, maps every positive x to a negative
value, and to_fixed(1) = -2147483648. -/
theorem to_fixed_wraps :
    shl_int 1 scale = -2 ^ 31 ∧ scale_factor = -2 ^ 31 ∧
    (∀ x : ℚ, to_fixed x = -2 ^ 31 * x) ∧
    (∀ x : ℚ, from_fixed x = -x / 2 ^ 31) ∧
    (∀ n : ℤ, from_fixed (n : ℚ) = -(n : ℚ) / 2 ^ 31) ∧
    (∀ x y : ℚ, x < y → to_fixed y < to_fixed x) ∧
    StrictAnti to_fixed ∧
    (∀ x : ℚ, 0 < x → to_fixed x < 0) ∧
    to_fixed 1 = -2147483648 := by
  have hanti : StrictAnti to_fixed := by
    intro a b hab
    rw [to_fixed_eq, to_fixed_eq]; linarith
  refine ⟨shl_int_one_scale, scale_factor_eq, ?_, ?_, ?_, fun x y h => hanti h, hanti, ?_, ?_⟩
  · intro x; rw [to_fixed_eq]; ring
  · intro x; rw [from_fixed_eq]; ring
  · intro n; rw [from_fixed_eq]; ring
  · intro x hx; rw [to_fixed_eq]; linarith
  · rw [to_fixed_eq]; norm_num

/-- C16 (witness): the negative input x = -3 (to_fixed(-3) = 3 * 2^31), the pair 1 < 2
and the positive input 1. -/
theorem to_fixed_wraps_witness :
    ((1 : ℚ) < 2 ∧ (0 : ℚ) < 1) ∧
    (to_fixed (-3) = -2 ^ 31 * (-3) ∧ from_fixed (-3) = -(-3) / 2 ^ 31 ∧
      to_fixed 2 < to_fixed 1 ∧ to_fixed 1 < 0) :=
  ⟨⟨by norm_num, by norm_num⟩,
    to_fixed_wraps.2.2.1 (-3), to_fixed_wraps.2.2.2.1 (-3),
    to_fixed_wraps.2.2.2.2.2.1 1 2 (by norm_num),
    to_fixed_wraps.2.2.2.2.2.2.2.1 1 (by norm_num)⟩

/-! ### The struct parts and get_mantissa -/

/-- The layout of the struct `parts` over a 64-bit pattern, and how it relates to the
binary64 fields: the sign agrees, the binary64 exponent is the top 11 bits of the
field exponent, and mantisa is the low 32 bits of the binary64 mantissa. -/
theorem parts_view_eq (d : Nat) (hd : d < 2 ^ 64) :
    (parts_view d).mantisa = d % 2 ^ 32 ∧
    (parts_view d).exponent = d / 2 ^ 32 % 2 ^ 31 ∧
    (parts_view d).sign = d / 2 ^ 63 ∧
    (parts_view d).sign = binary64_sign d ∧
    binary64_exponent d = (parts_view d).exponent / 2 ^ 20 ∧
    (parts_view d).mantisa = binary64_mantissa d % 2 ^ 32 := by
  have o0 : field_offset parts_widths 0 = 0 := rfl
  have o1 : field_offset parts_widths 1 = 32 := rfl
  have o2 : field_offset parts_widths 2 = 63 := rfl
  have hm : (parts_view d).mantisa = d / 2 ^ 0 % 2 ^ 32 := by
    show bitfield d (field_offset parts_widths 0) 32 = _
    rw [o0, bitfield_eq]
  have he : (parts_view d).exponent = d / 2 ^ 32 % 2 ^ 31 := by
    show bitfield d (field_offset parts_widths 1) 31 = _
    rw [o1, bitfield_eq]
  have hs : (parts_view d).sign = d / 2 ^ 63 % 2 ^ 1 := by
    show bitfield d (field_offset parts_widths 2) 1 = _
    rw [o2, bitfield_eq]
  rw [hm, he, hs]
  unfold binary64_sign binary64_exponent binary64_mantissa
  norm_num
  omega

theorem load_low_word (x : Nat) : le_value ((object_bytes 8 x).take 4) = x % 2 ^ 32 := by
  have e : (object_bytes 8 x).take 4
      = [x / 256 ^ 0 % 256, x / 256 ^ 1 % 256, x / 256 ^ 2 % 256, x / 256 ^ 3 % 256] := rfl
  rw [e]
  simp only [le_value]
  norm_num
  omega

theorem get_mantissa_eq (x : Nat) :
    get_mantissa x = some (printf_b (x % 2 ^ 32) ++ ['\n']
      ++ (byte_chars (object_bytes 4 (x % 2 ^ 32)) 4 ++ ['\n']), x % 2 ^ 32) := by
  unfold get_mantissa
  rw [load_low_word, (printBits_4 (x % 2 ^ 32) (Nat.mod_lt _ (by norm_num))).1]
  rfl

/-- C15 (failing input): through the struct parts the pattern 0x3FF8000000000000 of
the double 1.5 reads as mantisa = 0, exponent = 0x3FF80000, sign = 0; the binary64
layout gives exponent 1023 and mantissa 2^51. Only the sign agrees. -/
theorem parts_not_binary64 :
    parts_widths = [32, 31, 1] ∧
    parts_view 0x3FF8000000000000 = { mantisa := 0, exponent := 0x3FF80000, sign := 0 } ∧
    binary64_sign 0x3FF8000000000000 = 0 ∧
    binary64_exponent 0x3FF8000000000000 = 1023 ∧
    binary64_mantissa 0x3FF8000000000000 = 2 ^ 51 ∧
    (parts_view 0x3FF8000000000000).exponent ≠ binary64_exponent 0x3FF8000000000000 ∧
    (parts_view 0x3FF8000000000000).mantisa ≠ binary64_mantissa 0x3FF8000000000000 := by
  decide

/-- C17: for every double pattern d, get_mantissa returns d mod 2^32, the low-order 32
bits of the pattern, which is the binary64 mantissa field modulo 2^32; the sign and
exponent fields do not enter it, and two patterns whose mantissas agree on their low
32 bits (differ only in their top 20 bits) give the same result. -/
theorem get_mantissa_low_word (d e : Nat)
    (h : binary64_mantissa d % 2 ^ 32 = binary64_mantissa e % 2 ^ 32) :
    (get_mantissa d).map Prod.snd = some (d % 2 ^ 32) ∧
    (get_mantissa d).map Prod.snd = some (binary64_mantissa d % 2 ^ 32) ∧
    (get_mantissa d).map Prod.snd = (get_mantissa e).map Prod.snd := by
  have hd : d % 2 ^ 32 = binary64_mantissa d % 2 ^ 32 := by
    unfold binary64_mantissa; omega
  have he : e % 2 ^ 32 = binary64_mantissa e % 2 ^ 32 := by
    unfold binary64_mantissa; omega
  rw [get_mantissa_eq, get_mantissa_eq]
  refine ⟨rfl, ?_, ?_⟩
  · show some (d % 2 ^ 32) = _
    rw [hd]
  · show some (d % 2 ^ 32) = some (e % 2 ^ 32)
    rw [hd, he, h]

/-- C17 (witness): the patterns 0x3FF8000000000001 and 0xC000000000000001, of
different sign, exponent and top mantissa bits, both give 1. -/
theorem get_mantissa_low_word_witness :
    (binary64_mantissa 0x3FF8000000000001 % 2 ^ 32
      = binary64_mantissa 0xC000000000000001 % 2 ^ 32) ∧
    ((get_mantissa 0x3FF8000000000001).map Prod.snd = some (0x3FF8000000000001 % 2 ^ 32) ∧
      (get_mantissa 0x3FF8000000000001).map Prod.snd
        = some (binary64_mantissa 0x3FF8000000000001 % 2 ^ 32) ∧
      (get_mantissa 0x3FF8000000000001).map Prod.snd
        = (get_mantissa 0xC000000000000001).map Prod.snd) :=
  ⟨by decide, get_mantissa_low_word 0x3FF8000000000001 0xC000000000000001 (by decide)⟩

/-! ### The run of printBits -/

theorem printBits_inner_run_out (b : List Nat) (i : Int) :
    ∀ (n : Nat) (j : Int) (r : PrintRun), (j + 1).toNat = n →
      (printBits_inner_run b i j r).map PrintRun.out = printBits_inner b i j r.out := by
  intro n
  induction n with
  | zero =>
    intro j r hj
    have h0 : ¬ (0 ≤ j) := by omega
    unfold printBits_inner_run printBits_inner
    rw [if_neg h0, if_neg h0]; rfl
  | succ n ih =>
    intro j r hj
    have h0 : 0 ≤ j := by omega
    unfold printBits_inner_run printBits_inner
    rw [if_pos h0, if_pos h0]
    cases hb : (if 0 ≤ i then b[i.toNat]? else none) with
    | none => rfl
    | some bi =>
      rw [Option.some_bind, Option.some_bind]
      exact ih (j - 1) _ (by omega)

theorem printBits_outer_run_out (b : List Nat) :
    ∀ (n : Nat) (i : Int) (r : PrintRun), (i + 1).toNat = n →
      (printBits_outer_run b i r).map PrintRun.out = printBits_outer b i r.out := by
  intro n
  induction n with
  | zero =>
    intro i r hi
    have h0 : ¬ (0 ≤ i) := by omega
    unfold printBits_outer_run printBits_outer
    rw [if_neg h0, if_neg h0]; rfl
  | succ n ih =>
    intro i r hi
    have h0 : 0 ≤ i := by omega
    unfold printBits_outer_run printBits_outer
    rw [if_pos h0, if_pos h0]
    have hin := printBits_inner_run_out b i 8 7
      { out := r.out, reads := r.reads, outer_iterations := r.outer_iterations + 1,
        inner_iterations := r.inner_iterations } (by decide)
    cases hr : printBits_inner_run b i 7
      { out := r.out, reads := r.reads, outer_iterations := r.outer_iterations + 1,
        inner_iterations := r.inner_iterations } with
    | none =>
      rw [hr] at hin
      rw [← hin]; rfl
    | some r1 =>
      rw [hr] at hin
      rw [← hin]
      show (printBits_outer_run b (i - 1) r1).map PrintRun.out = printBits_outer b (i - 1) r1.out
      exact ih (i - 1) r1 (by omega)

/-- The record of a run keeps the output of `printBits`, for every size and buffer. -/
theorem printBits_run_out (size : Nat) (b : List Nat) :
    (printBits_run size b).map PrintRun.out = printBits size b := by
  unfold printBits_run printBits
  rw [← printBits_outer_run_out b _ _
    { out := [], reads := [], outer_iterations := 0, inner_iterations := 0 } rfl]
  cases printBits_outer_run b (wrap_int (wrap_size_t ((size : Int) - 1)))
    { out := [], reads := [], outer_iterations := 0, inner_iterations := 0 } <;> rfl

theorem printBits_inner_run_eq (b : List Nat) (i : Int) (bi : Nat) (hi : 0 ≤ i)
    (hb : b[i.toNat]? = some bi) (n : Nat) :
    ∀ r, printBits_inner_run b i ((n : Int) - 1) r = some
      { out := r.out ++ bit_chars bi n
        reads := r.reads ++ List.replicate n i
        outer_iterations := r.outer_iterations
        inner_iterations := r.inner_iterations + n } := by
  induction n with
  | zero =>
    intro r
    unfold printBits_inner_run
    simp [bit_chars]
  | succ n ih =>
    intro r
    unfold printBits_inner_run
    have h0 : (0 : Int) ≤ ((n + 1 : Nat) : Int) - 1 := by omega
    have h1 : (((n + 1 : Nat) : Int) - 1).toNat = n := by omega
    have h2 : ((n + 1 : Nat) : Int) - 1 - 1 = (n : Int) - 1 := by omega
    rw [if_pos h0, if_pos hi, hb, Option.some_bind, h1, h2, printf_u_bit, ih]
    simp [bit_chars, List.replicate_succ]
    omega

theorem printBits_outer_run_eq (b : List Nat) (n : Nat) (hn : n ≤ b.length) :
    ∀ r, printBits_outer_run b ((n : Int) - 1) r = some
      { out := r.out ++ byte_chars b n
        reads := r.reads ++ read_seq n
        outer_iterations := r.outer_iterations + n
        inner_iterations := r.inner_iterations + 8 * n } := by
  induction n with
  | zero =>
    intro r
    unfold printBits_outer_run
    simp [byte_chars, read_seq]
  | succ n ih =>
    intro r
    unfold printBits_outer_run
    have h0 : (0 : Int) ≤ ((n + 1 : Nat) : Int) - 1 := by omega
    have h1 : (((n + 1 : Nat) : Int) - 1).toNat = n := by omega
    have h2 : ((n + 1 : Nat) : Int) - 1 - 1 = (n : Int) - 1 := by omega
    have h3 : ((n + 1 : Nat) : Int) - 1 = (n : Int) := by omega
    have hlt : n < b.length := by omega
    have hb : b[(((n + 1 : Nat) : Int) - 1).toNat]? = some (b.getD n 0) := by
      rw [h1]; simp [List.getD, List.getElem?_eq_getElem hlt]
    have hin := printBits_inner_run_eq b (((n + 1 : Nat) : Int) - 1) (b.getD n 0) h0 hb 8
    have h7 : ((8 : Nat) : Int) - 1 = 7 := by norm_num
    rw [h7] at hin
    rw [if_pos h0, hin, Option.some_bind, h2, ih (by omega), h3]
    simp [byte_chars, read_seq]
    omega

theorem printBits_run_eq (size : Nat) (b : List Nat) (hlen : size ≤ b.length)
    (hsize : size ≤ 2 ^ 31) :
    printBits_run size b = some
      { out := byte_chars b size ++ ['\n']
        reads := read_seq size
        outer_iterations := size
        inner_iterations := 8 * size } := by
  unfold printBits_run
  rw [wrap_index size hsize, printBits_outer_run_eq b size hlen]
  simp

theorem read_seq_length (n : Nat) : (read_seq n).length = 8 * n := by
  induction n with
  | zero => rfl
  | succ n ih =>
    simp only [read_seq, List.length_append, List.length_replicate, ih]
    omega

theorem mem_read_seq (n : Nat) : ∀ i ∈ read_seq n, 0 ≤ i ∧ i < (n : Int) := by
  induction n with
  | zero => intro i hi; simp [read_seq] at hi
  | succ n ih =>
    intro i hi
    simp only [read_seq, List.mem_append] at hi
    rcases hi with hi | hi
    · have := List.eq_of_mem_replicate hi
      omega
    · have := ih i hi
      omega

theorem count_read_seq (n : Nat) : ∀ i : Nat, i < n → (read_seq n).count (i : Int) = 8 := by
  induction n with
  | zero => intro i hi; omega
  | succ n ih =>
    intro i hi
    simp only [read_seq, List.count_append, List.count_replicate]
    by_cases h : i = n
    · subst h
      have hn : (read_seq i).count (i : Int) = 0 := by
        rw [List.count_eq_zero]
        intro hmem
        have := mem_read_seq i _ hmem
        omega
      simp [hn]
    · have hne : ¬ ((n : Int) = (i : Int)) := by omega
      simp [hne, ih i (by omega)]

/-- C18: for every size with 0 <= size <= 2^31 - 1 and a buffer of at least size bytes,
printBits terminates: its run begins the outer loop body exactly size times and makes
8 * size inner iterations, eight reads of b[i] for each i, all at indices 0..size-1;
for size = 0 the index i starts at -1, nothing is read and only the newline is
written. -/
theorem printBits_terminates (size : Nat) (b : List Nat) (hlen : size ≤ b.length)
    (hsize : size ≤ 2 ^ 31 - 1) :
    ∃ r, printBits_run size b = some r ∧ printBits size b = some r.out ∧
      r.outer_iterations = size ∧ r.inner_iterations = 8 * size ∧
      r.reads = read_seq size ∧ r.reads.length = 8 * size ∧
      (∀ i ∈ r.reads, 0 ≤ i ∧ i < (size : Int)) ∧
      (∀ i : Nat, i < size → r.reads.count (i : Int) = 8) ∧
      (size = 0 → wrap_int (wrap_size_t ((size : Int) - 1)) = -1 ∧
        r.reads = [] ∧ r.out = ['\n']) := by
  have hrun := printBits_run_eq size b hlen (by omega)
  have hout := printBits_run_out size b
  rw [hrun] at hout
  refine ⟨_, hrun, hout.symm, rfl, rfl, rfl, ?_, mem_read_seq size, count_read_seq size, ?_⟩
  · exact read_seq_length size
  · intro h0
    subst h0
    exact ⟨by decide, rfl, rfl⟩

/-- C18 (witness): the four bytes of 1.0f (0x3F800000) with size = 4, where the run
makes 4 outer and 32 inner iterations and reads indices 3, 2, 1, 0 eight times each;
and the empty buffer with size = 0; the last part is the run at size = 4 written out. -/
theorem printBits_terminates_witness :
    ((4 ≤ [0, 0, 128, 63].length ∧ 4 ≤ 2 ^ 31 - 1) ∧
      (∃ r, printBits_run 4 [0, 0, 128, 63] = some r ∧
        printBits 4 [0, 0, 128, 63] = some r.out ∧
        r.outer_iterations = 4 ∧ r.inner_iterations = 8 * 4 ∧
        r.reads = read_seq 4 ∧ r.reads.length = 8 * 4 ∧
        (∀ i ∈ r.reads, 0 ≤ i ∧ i < ((4 : Nat) : Int)) ∧
        (∀ i : Nat, i < 4 → r.reads.count (i : Int) = 8) ∧
        (4 = 0 → wrap_int (wrap_size_t (((4 : Nat) : Int) - 1)) = -1 ∧
          r.reads = [] ∧ r.out = ['\n']))) ∧
    ((0 ≤ ([] : List Nat).length ∧ 0 ≤ 2 ^ 31 - 1) ∧
      (∃ r, printBits_run 0 [] = some r ∧ printBits 0 [] = some r.out ∧
        r.outer_iterations = 0 ∧ r.inner_iterations = 8 * 0 ∧
        r.reads = read_seq 0 ∧ r.reads.length = 8 * 0 ∧
        (∀ i ∈ r.reads, 0 ≤ i ∧ i < ((0 : Nat) : Int)) ∧
        (∀ i : Nat, i < 0 → r.reads.count (i : Int) = 8) ∧
        (0 = 0 → wrap_int (wrap_size_t (((0 : Nat) : Int) - 1)) = -1 ∧
          r.reads = [] ∧ r.out = ['\n']))) ∧
    printBits_run 4 [0, 0, 128, 63] = some
      { out := "00111111100000000000000000000000".toList ++ ['\n']
        reads := [3, 3, 3, 3, 3, 3, 3, 3, 2, 2, 2, 2, 2, 2, 2, 2,
          1, 1, 1, 1, 1, 1, 1, 1, 0, 0, 0, 0, 0, 0, 0, 0]
        outer_iterations := 4
        inner_iterations := 32 } :=
  ⟨⟨⟨by decide, by decide⟩, printBits_terminates 4 [0, 0, 128, 63] (by decide) (by decide)⟩,
    ⟨⟨by decide, by decide⟩, printBits_terminates 0 [] (by decide) (by decide)⟩,
    by rw [printBits_run_eq 4 _ (by decide) (by decide)]; decide⟩

end Precision
